import Mathlib

/-!
Verification of the neural-network interatomic potential pair styles
(PairNNAngular2 in pair_nn_angular2.cpp and PairNN in the pair-only
variant).  The C++ double arithmetic is embedded over the real numbers.
Matrices that the source stores as armadillo row vectors become
functions out of Fin, the per-layer loop of the forward pass becomes a
structurally recursive evaluator over an explicit layer stack, and the
per-anchor force/energy accumulation of compute becomes an explicit
state-passing fold.
-/

noncomputable section

namespace PairNN

open Real

/-- PairNNAngular2::sigmoid applied entrywise: 1/(1 + exp(-x)). -/
def sigmoid (t : ℝ) : ℝ := 1 / (1 + Real.exp (-t))

/-- PairNNAngular2::sigmoidDerivative: sigmoid(x) * (1 - sigmoid(x)). -/
def sigmoidDerivative (t : ℝ) : ℝ := sigmoid t * (1 - sigmoid t)

/-- A trained parameter set with consistently chained shapes:
the weight matrices and bias rows loaded by read_file, one constructor
per layer transition.  Net n maps a 1 x n input row to a scalar:
hidden layers apply sigmoid, the final output layer is linear
(bias already shed to the single output column). -/
inductive Net : ℕ → Type where
  | out {n : ℕ} (w : Fin n → ℝ) (b : ℝ) : Net n
  | hidden {n m : ℕ} (W : Fin n → Fin m → ℝ) (b : Fin m → ℝ) (rest : Net m) : Net n

/-- PairNNAngular2::network: forward pass.  Each hidden transition is
pre = activation * W + b followed by entrywise sigmoid; the output
layer is linear and the single entry (0,0) is returned. -/
def Net.network : {n : ℕ} → Net n → (Fin n → ℝ) → ℝ
  | _, .out w b, x => (∑ i, x i * w i) + b
  | _, .hidden W b rest, x =>
      Net.network rest (fun j => sigmoid ((∑ i, x i * W i j) + b j))

/-- PairNNAngular2::backPropagation: seeds the output error with 1,
propagates error[l] = (error[l+1] * Wt[l]) ⊙ sigmoidDerivative(pre[l])
through the hidden layers and returns error[1] * Wt[0], the row of
derivatives of the scalar output with respect to the input row. -/
def Net.backPropagation : {n : ℕ} → Net n → (Fin n → ℝ) → (Fin n → ℝ)
  | _, .out w _, _ => w
  | _, .hidden W b rest, x => fun i =>
      ∑ j, (Net.backPropagation rest
              (fun j2 => sigmoid ((∑ i2, x i2 * W i2 j2) + b j2)) j
            * sigmoidDerivative ((∑ i2, x i2 * W i2 j) + b j)) * W i j

/-- The bias of the final (linear) output layer, m_biases[m_nLayers]
after the shed_cols reshape to a single scalar. -/
def Net.outputBias : {n : ℕ} → Net n → ℝ
  | _, .out _ b => b
  | _, .hidden _ _ rest => Net.outputBias rest

/-- The linear functional v ↦ ∑ i, g i * v i packaged as a continuous
linear map, used to phrase gradients of the scalar network output. -/
def gradCLM {n : ℕ} (g : Fin n → ℝ) : (Fin n → ℝ) →L[ℝ] ℝ :=
  ∑ i, g i • ContinuousLinearMap.proj i

theorem gradCLM_apply {n : ℕ} (g v : Fin n → ℝ) : gradCLM g v = ∑ i, g i * v i := by
  simp [gradCLM]

theorem hasDerivAt_sigmoid (t : ℝ) :
    HasDerivAt sigmoid (sigmoidDerivative t) t := by
  have hpos : 0 < 1 + Real.exp (-t) := by positivity
  have hd : HasDerivAt (fun s : ℝ => 1 + Real.exp (-s)) (-Real.exp (-t)) t := by
    have he : HasDerivAt (fun s : ℝ => Real.exp (-s)) (Real.exp (-t) * (-1)) t :=
      (Real.hasDerivAt_exp (-t)).comp t (hasDerivAt_neg t)
    have := he.const_add (1 : ℝ)
    simpa using this
  have hinv : HasDerivAt (fun s : ℝ => (1 + Real.exp (-s))⁻¹)
      (-(-Real.exp (-t)) / (1 + Real.exp (-t)) ^ 2) t := hd.inv (ne_of_gt hpos)
  have heq : sigmoid = fun s : ℝ => (1 + Real.exp (-s))⁻¹ := by
    funext s; simp [sigmoid, one_div]
  rw [heq]
  convert hinv using 1
  have hne : (1 + Real.exp (-t)) ≠ 0 := ne_of_gt hpos
  simp only [sigmoidDerivative, sigmoid]
  field_simp
  ring

theorem backPropagation_hasFDerivAt {n : ℕ} (net : Net n) :
    ∀ x : Fin n → ℝ, HasFDerivAt net.network (gradCLM (net.backPropagation x)) x := by
  induction net with
  | out w b =>
    intro x
    have h0 : (Net.out w b).network = fun y : Fin _ → ℝ => gradCLM w y + b := by
      funext y
      show (∑ i, y i * w i) + b = gradCLM w y + b
      rw [gradCLM_apply]
      congr 1
      exact Finset.sum_congr rfl fun i _ => mul_comm _ _
    rw [h0, show (Net.out w b).backPropagation x = w from rfl]
    exact (gradCLM w).hasFDerivAt.add_const b
  | hidden W b rest ih =>
    intro x
    -- the layer map sending the input row to the next activations
    have hAff : ∀ j, HasFDerivAt (fun y : Fin _ → ℝ => (∑ i, y i * W i j) + b j)
        (gradCLM fun i => W i j) x := by
      intro j
      have h0 : (fun y : Fin _ → ℝ => (∑ i, y i * W i j) + b j)
          = fun y => gradCLM (fun i => W i j) y + b j := by
        funext y
        rw [gradCLM_apply]
        congr 1
        exact Finset.sum_congr rfl fun i _ => mul_comm _ _
      rw [h0]
      exact (gradCLM fun i => W i j).hasFDerivAt.add_const (b j)
    have hA : HasFDerivAt (fun (y : Fin _ → ℝ) j => sigmoid ((∑ i, y i * W i j) + b j))
        (ContinuousLinearMap.pi fun j =>
          sigmoidDerivative ((∑ i, x i * W i j) + b j) • gradCLM fun i => W i j) x := by
      refine hasFDerivAt_pi.2 fun j => ?_
      have hs := hasDerivAt_sigmoid ((∑ i, x i * W i j) + b j)
      have hc := hs.comp_hasFDerivAt x (hAff j)
      simpa [Function.comp] using hc
    have hR := ih (fun j => sigmoid ((∑ i, x i * W i j) + b j))
    have hcomp := hR.comp x hA
    have hLin : (gradCLM (rest.backPropagation
          (fun j => sigmoid ((∑ i, x i * W i j) + b j)))).comp
          (ContinuousLinearMap.pi fun j =>
            sigmoidDerivative ((∑ i, x i * W i j) + b j) • gradCLM fun i => W i j)
        = gradCLM ((Net.hidden W b rest).backPropagation x) := by
      apply ContinuousLinearMap.ext
      intro v
      show gradCLM _ (fun j => _)  = gradCLM _ v
      rw [gradCLM_apply, gradCLM_apply]
      show (∑ j, _ * ((sigmoidDerivative ((∑ i, x i * W i j) + b j) •
              gradCLM fun i => W i j) v)) = _
      simp only [ContinuousLinearMap.smul_apply, smul_eq_mul, gradCLM_apply,
        Net.backPropagation, Finset.sum_mul, Finset.mul_sum]
      rw [Finset.sum_comm]
      refine Finset.sum_congr rfl fun i _ => Finset.sum_congr rfl fun j _ => by ring
    rw [show (Net.hidden W b rest).network
        = fun y => rest.network (fun j => sigmoid ((∑ i, y i * W i j) + b j)) from rfl,
      ← hLin]
    exact hcomp

/-- C1: for every parameter set with consistently chained shapes and every
input descriptor row x, the row returned by backPropagation is the exact
gradient of the scalar returned by network: the forward map is Frechet
differentiable at x with derivative v ↦ ∑ d, backPropagation x d * v d,
and each of the D partial derivatives of the output with respect to an
input component equals the corresponding entry of the backPropagation row. -/
theorem c1_backPropagation_is_exact_gradient {n : ℕ} (net : Net n) (x : Fin n → ℝ) :
    HasFDerivAt net.network (gradCLM (net.backPropagation x)) x ∧
    ∀ d : Fin n, HasDerivAt (fun t => net.network (Function.update x d t))
      (net.backPropagation x d) (x d) := by
  refine ⟨backPropagation_hasFDerivAt net x, fun d => ?_⟩
  have hU := hasDerivAt_update x d (x d)
  have hF := backPropagation_hasFDerivAt net x
  rw [show x = Function.update x d (x d) by rw [Function.update_eq_self]] at hF
  have hc := hF.comp_hasDerivAt (x d) hU
  rw [Function.update_eq_self] at hc
  have hval : gradCLM (net.backPropagation x) (Pi.single d 1) = net.backPropagation x d := by
    rw [gradCLM_apply]
    rw [Finset.sum_eq_single d]
    · simp
    · intro i _ hne
      simp [Pi.single_apply, hne]
    · intro hd
      exact absurd (Finset.mem_univ d) hd
  rw [hval] at hc
  simpa [Function.comp] using hc

/-- C5: the forward pass applies, for each hidden transition,
pre = activation * W + b (entry j is ∑ i, activation i * W i j + b j)
followed by the entrywise sigmoid 1/(1+exp(-x)); the final output layer
is linear (identity activation) and the single scalar entry is returned. -/
theorem c5_network_forward_pass :
    (∀ (n m : ℕ) (W : Fin n → Fin m → ℝ) (b : Fin m → ℝ) (rest : Net m) (x : Fin n → ℝ),
        (Net.hidden W b rest).network x
          = rest.network (fun j => sigmoid ((∑ i, x i * W i j) + b j))) ∧
    (∀ (n : ℕ) (w : Fin n → ℝ) (b : ℝ) (x : Fin n → ℝ),
        (Net.out w b).network x = (∑ i, x i * w i) + b) ∧
    (∀ t : ℝ, sigmoid t = 1 / (1 + Real.exp (-t))) ∧
    (∀ t : ℝ, sigmoidDerivative t = sigmoid t * (1 - sigmoid t)) :=
  ⟨fun _ _ _ _ _ _ => rfl, fun _ _ _ _ => rfl, fun _ => rfl, fun _ => rfl⟩

/-! ## Geometry and descriptor functions -/

/-- A 3-vector of real coordinates, as used for the displacement
(delx, dely, delz) between two atoms. -/
@[ext]
structure Vec3 where
  x : ℝ
  y : ℝ
  z : ℝ

namespace Vec3

instance : Zero Vec3 := ⟨⟨0, 0, 0⟩⟩

instance : Add Vec3 := ⟨fun a b => ⟨a.x + b.x, a.y + b.y, a.z + b.z⟩⟩

instance : Neg Vec3 := ⟨fun a => ⟨-a.x, -a.y, -a.z⟩⟩

instance : Sub Vec3 := ⟨fun a b => ⟨a.x - b.x, a.y - b.y, a.z - b.z⟩⟩

instance : SMul ℝ Vec3 := ⟨fun c a => ⟨c * a.x, c * a.y, c * a.z⟩⟩

theorem zero_def : (0 : Vec3) = ⟨0, 0, 0⟩ := rfl

theorem add_def (a b : Vec3) : a + b = ⟨a.x + b.x, a.y + b.y, a.z + b.z⟩ := rfl

theorem neg_def (a : Vec3) : -a = ⟨-a.x, -a.y, -a.z⟩ := rfl

theorem sub_def (a b : Vec3) : a - b = ⟨a.x - b.x, a.y - b.y, a.z - b.z⟩ := rfl

theorem smul_def (c : ℝ) (a : Vec3) : c • a = ⟨c * a.x, c * a.y, c * a.z⟩ := rfl

instance : AddCommGroup Vec3 where
  add_assoc a b c := by ext <;> simp [add_def] <;> ring
  zero_add a := by ext <;> simp [add_def, zero_def]
  add_zero a := by ext <;> simp [add_def, zero_def]
  add_comm a b := by ext <;> simp [add_def] <;> ring
  neg_add_cancel a := by ext <;> simp [add_def, neg_def, zero_def]
  sub_eq_add_neg a b := by ext <;> simp [add_def, neg_def, sub_def] <;> ring
  nsmul := nsmulRec
  zsmul := zsmulRec

/-- The squared length delx*delx + dely*dely + delz*delz. -/
def normSq (a : Vec3) : ℝ := a.x * a.x + a.y * a.y + a.z * a.z

/-- The scalar product of two displacement vectors. -/
def dot (a b : Vec3) : ℝ := a.x * b.x + a.y * b.y + a.z * b.z

/-- The length sqrt(rsq) of a displacement vector. -/
def len (a : Vec3) : ℝ := Real.sqrt (normSq a)

end Vec3

/-- The cosine of the angle at the anchor between displacements rij and
rik: (delxj*delxk + delyj*delyk + delzj*delzk) / (rij*rik). -/
def cosAngle (dj dk : Vec3) : ℝ := Vec3.dot dj dk / (dj.len * dk.len)

/-- PairNNAngular2::Fc (scalar overload): the cutoff envelope,
0.5*(cos(pi*R/Rc) + 1) for R < Rc and exactly 0 otherwise. -/
def Fc (R Rc : ℝ) : ℝ :=
  if R < Rc then 0.5 * (Real.cos (Real.pi * R / Rc) + 1) else 0

/-- PairNNAngular2::dFcdR (scalar overload). -/
def dFcdR (R Rc : ℝ) : ℝ :=
  if R < Rc then -(0.5 * Real.pi * (1 / Rc)) * Real.sin (Real.pi * R * (1 / Rc)) else 0

/-- PairNNAngular2::Fc (batch overload) evaluated at one entry: the raw
cosine formula, zeroed for R > Rc when the hard-cut flag is set. -/
def FcB (R Rc : ℝ) (cut : Bool) : ℝ :=
  if cut = true ∧ Rc < R then 0 else 0.5 * (Real.cos (Real.pi * R / Rc) + 1)

/-- PairNNAngular2::dFcdR (batch overload) evaluated at one entry. -/
def dFcdRB (R Rc : ℝ) (cut : Bool) : ℝ :=
  if cut = true ∧ Rc < R then 0
  else -(0.5 * Real.pi * (1 / Rc)) * Real.sin (Real.pi * R * (1 / Rc))

/-- PairNNAngular2::G2: the radial symmetry-function term
exp(-eta*(rij-Rs)^2) * Fc(rij, Rc) for one neighbor. -/
def G2 (rij eta Rc Rs : ℝ) : ℝ :=
  Real.exp (-eta * (rij - Rs) * (rij - Rs)) * Fc rij Rc

/-- PairNNAngular2::dG2dR at one entry of the batch: the matrix formula
uses the batch envelope with the hard cut disabled. -/
def dG2dR (rij eta Rc Rs : ℝ) : ℝ :=
  Real.exp (-eta * (rij - Rs) * (rij - Rs)) *
    (2 * eta * (Rs - rij) * FcB rij Rc false + dFcdRB rij Rc false)

/-- PairNNAngular2::G5: the angular symmetry-function term
2^(1-zeta) * (1+lambda*cosTheta)^zeta * exp(-eta*(rij^2+rik^2))
* Fc(rij,Rc) * Fc(rik,Rc) for one triplet. -/
def G5 (rij rik cosTheta eta Rc zeta lambda : ℝ) : ℝ :=
  Real.rpow 2 (1 - zeta) * Real.rpow (1 + lambda * cosTheta) zeta *
    Real.exp (-eta * (rij * rij + rik * rik)) * Fc rij Rc * Fc rik Rc

/-- PairNNAngular2::dG5dR: the closed-form partial derivatives of one G5
triplet term with respect to the position of neighbor j (first result)
and neighbor k (second result), straight from the source. -/
def dG5dR (dj dk : Vec3) (Rij Rik cosTheta eta Rc zeta lambda : ℝ) : Vec3 × Vec3 :=
  let powCosThetaM1 := Real.rpow 2 (1 - zeta) * Real.rpow (1 + lambda * cosTheta) (zeta - 1)
  let F1 := powCosThetaM1 * (1 + lambda * cosTheta)
  let F2 := Real.exp (-eta * (Rij * Rij + Rik * Rik))
  let FcRij := Fc Rij Rc
  let FcRik := Fc Rik Rc
  let F3 := FcRij * FcRik
  let K := lambda * zeta * powCosThetaM1
  let L := 2 * eta * F2
  let Mij := dFcdR Rij Rc
  let Mik := dFcdR Rik Rc
  let term1 := K * F2 * F3
  let term2 := F1 * L * F3
  let F1F2 := F1 * F2
  let term3ij := F1F2 * Mij * FcRik
  let term3ik := F1F2 * Mik * FcRij
  let RijInv := 1 / Rij
  let cosRijInv2 := cosTheta * RijInv * RijInv
  let RikInv := 1 / Rik
  let cosRikInv2 := cosTheta * RikInv * RikInv
  let RijRikInv := RijInv * RikInv
  let termij := cosRijInv2 * term1 + term2 - RijInv * term3ij
  let termik := cosRikInv2 * term1 + term2 - RikInv * term3ik
  let crossTerm := -term1 * RijRikInv
  (⟨-dj.x * termij - dk.x * crossTerm,
    -dj.y * termij - dk.y * crossTerm,
    -dj.z * termij - dk.z * crossTerm⟩,
   ⟨-dk.x * termik - dj.x * crossTerm,
    -dk.y * termik - dj.y * crossTerm,
    -dk.z * termik - dj.z * crossTerm⟩)

/-! ## Per-pair and per-triplet force increments of compute -/

/-- The scalar pair force -dEdG(0,s) * dG2 / Rij for one accepted
neighbor at displacement d. -/
def fpair (dEdGs eta Rc Rs : ℝ) (d : Vec3) : ℝ :=
  -dEdGs * dG2dR d.len eta Rc Rs / d.len

/-- The radial force increment compute adds to neighbor j:
(fpair*drij(0,l), fpair*drij(1,l), fpair*drij(2,l)). -/
def pairIncrJ (dEdGs eta Rc Rs : ℝ) (d : Vec3) : Vec3 :=
  ⟨fpair dEdGs eta Rc Rs d * d.x,
   fpair dEdGs eta Rc Rs d * d.y,
   fpair dEdGs eta Rc Rs d * d.z⟩

/-- The radial force increment compute accumulates for anchor i from the
same pair, through fx2 -= fpair*drij(0,l) and its y,z analogues. -/
def pairIncrI (dEdGs eta Rc Rs : ℝ) (d : Vec3) : Vec3 :=
  ⟨-(fpair dEdGs eta Rc Rs d * d.x),
   -(fpair dEdGs eta Rc Rs d * d.y),
   -(fpair dEdGs eta Rc Rs d * d.z)⟩

/-- The triplet force fj3 = -dEdG(0,s) * dGj added to neighbor j. -/
def tripletIncrJ (dEdGs : ℝ) (dj dk : Vec3) (eta Rc zeta lambda : ℝ) : Vec3 :=
  -dEdGs • (dG5dR dj dk dj.len dk.len (cosAngle dj dk) eta Rc zeta lambda).1

/-- The triplet force fk3 = -dEdG(0,s) * dGk added to neighbor k. -/
def tripletIncrK (dEdGs : ℝ) (dj dk : Vec3) (eta Rc zeta lambda : ℝ) : Vec3 :=
  -dEdGs • (dG5dR dj dk dj.len dk.len (cosAngle dj dk) eta Rc zeta lambda).2

/-- The triplet force accumulated for anchor i from the same triplet,
through fx3j -= fj3[0], fx3k -= fk3[0] and the y,z analogues. -/
def tripletIncrI (dEdGs : ℝ) (dj dk : Vec3) (eta Rc zeta lambda : ℝ) : Vec3 :=
  ⟨-(tripletIncrJ dEdGs dj dk eta Rc zeta lambda).x
     - (tripletIncrK dEdGs dj dk eta Rc zeta lambda).x,
   -(tripletIncrJ dEdGs dj dk eta Rc zeta lambda).y
     - (tripletIncrK dEdGs dj dk eta Rc zeta lambda).y,
   -(tripletIncrJ dEdGs dj dk eta Rc zeta lambda).z
     - (tripletIncrK dEdGs dj dk eta Rc zeta lambda).z⟩

/-- Componentwise cancellation of the radial and triplet increments:
j's radial increment negates i's, and the three triplet increments of
one (i,j,k) term cancel. -/
theorem incr_sums_cancel
    (dEdGs eta Rc Rs zeta lambda : ℝ) (d dj dk : Vec3) :
    pairIncrI dEdGs eta Rc Rs d + pairIncrJ dEdGs eta Rc Rs d = 0 ∧
    pairIncrJ dEdGs eta Rc Rs d = -pairIncrI dEdGs eta Rc Rs d ∧
    tripletIncrI dEdGs dj dk eta Rc zeta lambda
      + tripletIncrJ dEdGs dj dk eta Rc zeta lambda
      + tripletIncrK dEdGs dj dk eta Rc zeta lambda = 0 := by
  refine ⟨?_, ?_, ?_⟩
  · ext <;> simp [pairIncrI, pairIncrJ, Vec3.add_def, Vec3.zero_def]
  · ext <;> simp [pairIncrI, pairIncrJ, Vec3.neg_def]
  · ext <;>
      simp [tripletIncrI, Vec3.add_def, Vec3.zero_def] <;> ring

/-! ## Descriptor engine: one anchor's inputVector -/

/-- Sum of f over all ordered pairs of list positions (earlier, later),
exactly how compute pairs each accepted neighbor jj with the accepted
neighbors kk > jj of the same anchor. -/
def pairSum {α M : Type*} [AddCommMonoid M] (f : α → α → M) : List α → M
  | [] => 0
  | a :: rest => (rest.map (f a)).sum + pairSum f rest

/-- One component of the inputVector built by compute from the accepted
(within-cutoff) neighbor displacements: a parameter record of three
numbers accumulates G2 over neighbors, one of four numbers accumulates
G5 over neighbor pairs, and any other record contributes nothing. -/
def symFuncValue : List ℝ → List Vec3 → ℝ
  | [eta, Rc, Rs], acc => (acc.map fun d => G2 d.len eta Rc Rs).sum
  | [eta, Rc, zeta, lambda], acc =>
      pairSum (fun dj dk => G5 dj.len dk.len (cosAngle dj dk) eta Rc zeta lambda) acc
  | _, _ => 0

/-- The potential configuration loaded at setup: the global cutoff, the
m_numberOfSymmFunc parameter records, the trained network, and the
optional input shift (m_shift / m_allMeans). -/
structure Config (n : ℕ) where
  cutoff : ℝ
  symm : Fin n → List ℝ
  net : Net n
  shift : Bool
  means : Fin n → ℝ

/-- The descriptor row of one anchor as a function of its accepted
neighbor displacements. -/
def descriptorVec {n : ℕ} (cfg : Config n) (acc : List Vec3) : Fin n → ℝ :=
  fun s => symFuncValue (cfg.symm s) acc

/-- The network input after the optional mean shift. -/
def shiftedVec {n : ℕ} (cfg : Config n) (acc : List Vec3) : Fin n → ℝ :=
  fun s => descriptorVec cfg acc s - (if cfg.shift then cfg.means s else 0)

/-- The scalar energy evdwl = network(inputVector) of one anchor. -/
def energyOf {n : ℕ} (cfg : Config n) (acc : List Vec3) : ℝ :=
  cfg.net.network (shiftedVec cfg acc)

/-- The neighbors of anchor i kept by compute: each candidate j is
paired with its displacement x[j] - x[i], and is skipped unless its
squared distance is strictly below cutoff^2. -/
def acceptedPairs (cutoff : ℝ) (pos : ℕ → Vec3) (i : ℕ) (js : List ℕ) :
    List (ℕ × Vec3) :=
  (js.map fun j => (j, pos j - pos i)).filter fun p => Vec3.normSq p.2 < cutoff ^ 2

/-- The descriptor row compute builds for anchor i. -/
def anchorDescriptor {n : ℕ} (cfg : Config n) (pos : ℕ → Vec3) (i : ℕ)
    (js : List ℕ) : Fin n → ℝ :=
  descriptorVec cfg ((acceptedPairs cfg.cutoff pos i js).map Prod.snd)

/-- The energy contribution compute adds to eng_vdwl for anchor i. -/
def anchorEnergy {n : ℕ} (cfg : Config n) (pos : ℕ → Vec3) (i : ℕ)
    (js : List ℕ) : ℝ :=
  energyOf cfg ((acceptedPairs cfg.cutoff pos i js).map Prod.snd)

/-- A one-atom force increment: the delta that a single f[a] += update
contributes, as a function over all atom indices. -/
def oneAtom (a : ℕ) (v : Vec3) : ℕ → Vec3 :=
  fun q => if q = a then v else 0

/-- The force increments of one symmetry function s for anchor i, over
the accepted neighbors: the radial branch adds pairIncrJ to each j and
pairIncrI to i; the angular branch adds tripletIncrJ to j, tripletIncrK
to k and tripletIncrI to i for every accepted ordered pair (j,k). -/
def symIncr (i : ℕ) (dEdGs : ℝ) : List ℝ → List (ℕ × Vec3) → ℕ → Vec3
  | [eta, Rc, Rs], acc =>
      (acc.map fun jd =>
        oneAtom jd.1 (pairIncrJ dEdGs eta Rc Rs jd.2)
          + oneAtom i (pairIncrI dEdGs eta Rc Rs jd.2)).sum
  | [eta, Rc, zeta, lambda], acc =>
      pairSum (fun jd kd =>
        oneAtom jd.1 (tripletIncrJ dEdGs jd.2 kd.2 eta Rc zeta lambda)
          + oneAtom kd.1 (tripletIncrK dEdGs jd.2 kd.2 eta Rc zeta lambda)
          + oneAtom i (tripletIncrI dEdGs jd.2 kd.2 eta Rc zeta lambda)) acc
  | _, _ => 0

/-- The total force increment of one anchor evaluation: the per-record
increments, each scaled through the backpropagated gradient dEdG. -/
def anchorForceIncr {n : ℕ} (cfg : Config n) (pos : ℕ → Vec3) (i : ℕ)
    (js : List ℕ) : ℕ → Vec3 :=
  ∑ s : Fin n,
    symIncr i
      (cfg.net.backPropagation
        (shiftedVec cfg ((acceptedPairs cfg.cutoff pos i js).map Prod.snd)) s)
      (cfg.symm s) (acceptedPairs cfg.cutoff pos i js)

theorem sum_oneAtom {s : Finset ℕ} {a : ℕ} (ha : a ∈ s) (v : Vec3) :
    ∑ q in s, oneAtom a v q = v := by
  rw [Finset.sum_eq_single a]
  · simp [oneAtom]
  · intro q _ hq
    simp [oneAtom, hq]
  · intro h
    exact absurd ha h

/-- C2: every internal force contribution sums to the zero vector over
the particles it touches: the radial increment on neighbor j is the
exact negation of the one accumulated for anchor i, so the one-atom
updates of a radial term total zero over any atom set containing i and
j; and the three increments of an angular triplet (i,j,k) sum to zero,
so the one-atom updates of a triplet term total zero over any atom set
containing i, j and k. -/
theorem c2_internal_forces_sum_to_zero
    (dEdGs eta Rc Rs zeta lambda : ℝ) (d dj dk : Vec3) (i j k : ℕ)
    (s : Finset ℕ) (hi : i ∈ s) (hj : j ∈ s) (hk : k ∈ s) :
    pairIncrI dEdGs eta Rc Rs d + pairIncrJ dEdGs eta Rc Rs d = 0 ∧
    pairIncrJ dEdGs eta Rc Rs d = -pairIncrI dEdGs eta Rc Rs d ∧
    tripletIncrI dEdGs dj dk eta Rc zeta lambda
      + tripletIncrJ dEdGs dj dk eta Rc zeta lambda
      + tripletIncrK dEdGs dj dk eta Rc zeta lambda = 0 ∧
    (∑ q in s, (oneAtom j (pairIncrJ dEdGs eta Rc Rs d)
        + oneAtom i (pairIncrI dEdGs eta Rc Rs d)) q) = 0 ∧
    (∑ q in s, (oneAtom j (tripletIncrJ dEdGs dj dk eta Rc zeta lambda)
        + oneAtom k (tripletIncrK dEdGs dj dk eta Rc zeta lambda)
        + oneAtom i (tripletIncrI dEdGs dj dk eta Rc zeta lambda)) q) = 0 := by
  obtain ⟨hpair, hneg, htrip⟩ := incr_sums_cancel dEdGs eta Rc Rs zeta lambda d dj dk
  refine ⟨hpair, hneg, htrip, ?_, ?_⟩
  · have hsplit : (∑ q in s, (oneAtom j (pairIncrJ dEdGs eta Rc Rs d)
          + oneAtom i (pairIncrI dEdGs eta Rc Rs d)) q)
        = (∑ q in s, oneAtom j (pairIncrJ dEdGs eta Rc Rs d) q)
          + ∑ q in s, oneAtom i (pairIncrI dEdGs eta Rc Rs d) q := by
      rw [← Finset.sum_add_distrib]
      rfl
    rw [hsplit, sum_oneAtom hj, sum_oneAtom hi, add_comm]
    exact hpair
  · have hsplit : (∑ q in s, (oneAtom j (tripletIncrJ dEdGs dj dk eta Rc zeta lambda)
          + oneAtom k (tripletIncrK dEdGs dj dk eta Rc zeta lambda)
          + oneAtom i (tripletIncrI dEdGs dj dk eta Rc zeta lambda)) q)
        = ((∑ q in s, oneAtom j (tripletIncrJ dEdGs dj dk eta Rc zeta lambda) q)
            + ∑ q in s, oneAtom k (tripletIncrK dEdGs dj dk eta Rc zeta lambda) q)
          + ∑ q in s, oneAtom i (tripletIncrI dEdGs dj dk eta Rc zeta lambda) q := by
      rw [← Finset.sum_add_distrib, ← Finset.sum_add_distrib]
      rfl
    rw [hsplit, sum_oneAtom hj, sum_oneAtom hk, sum_oneAtom hi]
    calc tripletIncrJ dEdGs dj dk eta Rc zeta lambda
          + tripletIncrK dEdGs dj dk eta Rc zeta lambda
          + tripletIncrI dEdGs dj dk eta Rc zeta lambda
        = tripletIncrI dEdGs dj dk eta Rc zeta lambda
          + tripletIncrJ dEdGs dj dk eta Rc zeta lambda
          + tripletIncrK dEdGs dj dk eta Rc zeta lambda := by abel
      _ = 0 := htrip

theorem c2_witness :
    (0 ∈ ({0, 1, 2} : Finset ℕ)) ∧ (1 ∈ ({0, 1, 2} : Finset ℕ)) ∧
    (2 ∈ ({0, 1, 2} : Finset ℕ)) ∧
    (pairIncrI 1 1 1 1 (Vec3.mk 1 0 0) + pairIncrJ 1 1 1 1 (Vec3.mk 1 0 0) = 0 ∧
     pairIncrJ 1 1 1 1 (Vec3.mk 1 0 0) = -pairIncrI 1 1 1 1 (Vec3.mk 1 0 0) ∧
     tripletIncrI 1 (Vec3.mk 1 0 0) (Vec3.mk 0 2 0) 1 1 1 1
       + tripletIncrJ 1 (Vec3.mk 1 0 0) (Vec3.mk 0 2 0) 1 1 1 1
       + tripletIncrK 1 (Vec3.mk 1 0 0) (Vec3.mk 0 2 0) 1 1 1 1 = 0 ∧
     (∑ q in ({0, 1, 2} : Finset ℕ), (oneAtom 1 (pairIncrJ 1 1 1 1 (Vec3.mk 1 0 0))
         + oneAtom 0 (pairIncrI 1 1 1 1 (Vec3.mk 1 0 0))) q) = 0 ∧
     (∑ q in ({0, 1, 2} : Finset ℕ),
         (oneAtom 1 (tripletIncrJ 1 (Vec3.mk 1 0 0) (Vec3.mk 0 2 0) 1 1 1 1)
           + oneAtom 2 (tripletIncrK 1 (Vec3.mk 1 0 0) (Vec3.mk 0 2 0) 1 1 1 1)
           + oneAtom 0 (tripletIncrI 1 (Vec3.mk 1 0 0) (Vec3.mk 0 2 0) 1 1 1 1)) q) = 0) :=
  ⟨by decide, by decide, by decide,
   c2_internal_forces_sum_to_zero 1 1 1 1 1 1 (Vec3.mk 1 0 0) (Vec3.mk 1 0 0)
     (Vec3.mk 0 2 0) 0 1 2 ({0, 1, 2} : Finset ℕ) (by decide) (by decide) (by decide)⟩

/-! ## The compute call as a state transformer -/

/-- The external accumulators compute writes into: the per-atom force
array f and the scalar eng_vdwl. -/
structure SimState where
  forces : ℕ → Vec3
  energy : ℝ

/-- One iteration of the anchor loop of compute: all force updates are
additions, and the anchor energy is added to the running eng_vdwl. -/
def anchorStep {n : ℕ} (cfg : Config n) (pos : ℕ → Vec3) (st : SimState)
    (a : ℕ × List ℕ) : SimState :=
  { forces := fun q => st.forces q + anchorForceIncr cfg pos a.1 a.2 q
    energy := st.energy + anchorEnergy cfg pos a.1 a.2 }

/-- PairNNAngular2::compute over one neighbor list: eng_vdwl is set to
0.0 at the start of the call, then the anchor loop accumulates forces
and energy. -/
def compute {n : ℕ} (cfg : Config n) (pos : ℕ → Vec3)
    (anchors : List (ℕ × List ℕ)) (st : SimState) : SimState :=
  anchors.foldl (anchorStep cfg pos) { st with energy := 0 }

/-- C4: for every positive cutoff radius Rc the envelope is 1 at R = 0
and exactly 0 at and beyond Rc (the hard batch variant included), so a
neighbor at distance exactly Rc contributes exactly zero to every
radial descriptor configured with that Rc. -/
theorem c4_cutoff_envelope (Rc : ℝ) (hRc : 0 < Rc) :
    Fc 0 Rc = 1 ∧
    (∀ R, Rc ≤ R → Fc R Rc = 0) ∧
    FcB Rc Rc true = 0 ∧
    (∀ R, Rc < R → FcB R Rc true = 0) ∧
    (∀ eta Rs, G2 Rc eta Rc Rs = 0) := by
  have hFcAt : ∀ R, Rc ≤ R → Fc R Rc = 0 := by
    intro R hR
    simp [Fc, not_lt.mpr hR]
  refine ⟨?_, hFcAt, ?_, ?_, ?_⟩
  · simp [Fc, hRc]
    norm_num
  · have hdiv : Real.pi * Rc / Rc = Real.pi := by
      rw [mul_div_assoc, div_self (ne_of_gt hRc), mul_one]
    simp [FcB, lt_irrefl, hdiv, Real.cos_pi]
  · intro R hR
    simp [FcB, hR]
  · intro eta Rs
    rw [G2, hFcAt Rc le_rfl, mul_zero]

theorem c4_witness :
    (0 : ℝ) < 1 ∧
    (Fc 0 1 = 1 ∧
     (∀ R, (1 : ℝ) ≤ R → Fc R 1 = 0) ∧
     FcB 1 1 true = 0 ∧
     (∀ R, (1 : ℝ) < R → FcB R 1 true = 0) ∧
     (∀ eta Rs, G2 1 eta 1 Rs = 0)) :=
  ⟨one_pos, c4_cutoff_envelope 1 one_pos⟩

/-- Mapping after filtering through the mapped predicate is filtering
after mapping; lets the accepted-neighbor displacements be read off the
pair list kept by compute. -/
theorem filter_map_comm {α β : Type*} (f : α → β) (p : β → Bool) (l : List α) :
    (l.filter fun a => p (f a)).map f = (l.map f).filter p := by
  induction l with
  | nil => rfl
  | cons a t ih =>
    by_cases h : p (f a)
    · simp [List.filter_cons, h, ih]
    · simp [List.filter_cons, h, ih]

theorem acceptedPairs_snd (cutoff : ℝ) (pos : ℕ → Vec3) (i : ℕ) (js : List ℕ) :
    (acceptedPairs cutoff pos i js).map Prod.snd
      = (js.map fun j => pos j - pos i).filter fun d => Vec3.normSq d < cutoff ^ 2 := by
  unfold acceptedPairs
  rw [filter_map_comm (Prod.snd) (fun d => Vec3.normSq d < cutoff ^ 2), List.map_map]
  rfl

/-- C6: for a three-parameter record (eta, Rc, Rs) the descriptor
component of an anchor equals the sum over neighbors strictly within
the global cutoff of exp(-eta*(Rij-Rs)^2) * Fc(Rij, Rc), and is 0 when
no neighbor qualifies. -/
theorem c6_radial_descriptor {n : ℕ} (cfg : Config n) (pos : ℕ → Vec3) (i : ℕ)
    (js : List ℕ) (s : Fin n) (eta Rc Rs : ℝ)
    (hs : cfg.symm s = [eta, Rc, Rs]) (hcut : 0 < cfg.cutoff) :
    anchorDescriptor cfg pos i js s
      = (((js.map fun j => pos j - pos i).filter fun d => Vec3.len d < cfg.cutoff).map
          fun d => Real.exp (-eta * (d.len - Rs) * (d.len - Rs)) * Fc d.len Rc).sum ∧
    (((js.map fun j => pos j - pos i).filter fun d => Vec3.len d < cfg.cutoff) = [] →
      anchorDescriptor cfg pos i js s = 0) := by
  have hfilter : ((js.map fun j => pos j - pos i).filter
        fun d => Vec3.normSq d < cfg.cutoff ^ 2)
      = ((js.map fun j => pos j - pos i).filter fun d => Vec3.len d < cfg.cutoff) := by
    apply List.filter_congr
    intro d _
    have : Vec3.len d < cfg.cutoff ↔ Vec3.normSq d < cfg.cutoff ^ 2 :=
      Real.sqrt_lt' hcut
    simp [this]
  have hmain : anchorDescriptor cfg pos i js s
      = (((js.map fun j => pos j - pos i).filter fun d => Vec3.len d < cfg.cutoff).map
          fun d => Real.exp (-eta * (d.len - Rs) * (d.len - Rs)) * Fc d.len Rc).sum := by
    unfold anchorDescriptor descriptorVec
    rw [hs, acceptedPairs_snd, hfilter]
    rfl
  exact ⟨hmain, fun hnil => by rw [hmain, hnil]; rfl⟩

/-- A concrete one-descriptor radial configuration used as a witness input. -/
def cfgC6 : Config 1 :=
  ⟨1, fun _ => [1, 1, 1], Net.out (fun _ : Fin 1 => 0) 0, false, fun _ => 0⟩

theorem c6_witness :
    cfgC6.symm 0 = [1, 1, 1] ∧
    (0 : ℝ) < cfgC6.cutoff ∧
    (anchorDescriptor cfgC6 (fun _ => 0) 0 [] 0
        = List.sum (((([] : List ℕ).map fun j => (fun _ : ℕ => (0 : Vec3)) j - (0 : Vec3)).filter
            (fun d => Vec3.len d < cfgC6.cutoff)).map
            (fun d : Vec3 => Real.exp (-1 * (d.len - 1) * (d.len - 1)) * Fc d.len 1))) :=
  ⟨rfl, one_pos, (c6_radial_descriptor cfgC6 (fun _ => 0) 0 [] 0 1 1 1 rfl one_pos).1⟩

theorem symFuncValue_nil (p : List ℝ) : symFuncValue p [] = 0 := by
  rcases p with _ | ⟨a, _ | ⟨b, _ | ⟨c, _ | ⟨d, _ | ⟨e, t⟩⟩⟩⟩⟩ <;> rfl

theorem symIncr_nil (i : ℕ) (g : ℝ) (p : List ℝ) : symIncr i g p [] = 0 := by
  rcases p with _ | ⟨a, _ | ⟨b, _ | ⟨c, _ | ⟨d, _ | ⟨e, t⟩⟩⟩⟩⟩ <;> rfl

/-- C3 amended: an anchor whose neighbor list keeps nobody strictly
within the cutoff yields an all-zero descriptor row, an energy equal to
the network evaluated on the zero descriptor row after the optional
mean shift (the zero row itself whenever no mean shift is configured),
and a zero force increment for every atom; the energy on the zero row
moreover equals the output-layer bias exactly when the network has no
hidden layer. -/
theorem c3_empty_neighborhood {n : ℕ} (cfg : Config n) (pos : ℕ → Vec3) (i : ℕ)
    (js : List ℕ) (hacc : acceptedPairs cfg.cutoff pos i js = []) :
    anchorDescriptor cfg pos i js = (fun _ => 0) ∧
    anchorEnergy cfg pos i js
      = cfg.net.network (fun s => 0 - (if cfg.shift then cfg.means s else 0)) ∧
    (cfg.shift = false → anchorEnergy cfg pos i js = cfg.net.network (fun _ => 0)) ∧
    (∀ q, anchorForceIncr cfg pos i js q = 0) ∧
    (∀ (w : Fin n → ℝ) (b : ℝ), (Net.out w b).network (fun _ => 0) = b) := by
  have hdesc : anchorDescriptor cfg pos i js = (fun _ => 0) := by
    funext s
    unfold anchorDescriptor descriptorVec
    rw [hacc]
    exact symFuncValue_nil _
  have hshifted : shiftedVec cfg ((acceptedPairs cfg.cutoff pos i js).map Prod.snd)
      = fun s => 0 - (if cfg.shift then cfg.means s else 0) := by
    funext s
    unfold shiftedVec descriptorVec
    rw [hacc, List.map_nil, symFuncValue_nil]
  have henergy : anchorEnergy cfg pos i js
      = cfg.net.network (fun s => 0 - (if cfg.shift then cfg.means s else 0)) := by
    unfold anchorEnergy energyOf
    rw [hshifted]
  refine ⟨hdesc, henergy, ?_, ?_, ?_⟩
  · intro hsh
    rw [henergy]
    congr 1
    funext s
    rw [hsh]
    simp
  · intro q
    unfold anchorForceIncr
    rw [hacc]
    rw [Finset.sum_apply]
    refine Finset.sum_eq_zero fun s _ => ?_
    rw [symIncr_nil]
    rfl
  · intro w b
    show (∑ j, (0 : ℝ) * w j) + b = b
    simp

/-- A concrete configuration with a linear network, used as a witness input. -/
def cfgC3 : Config 1 :=
  ⟨1, fun _ => [], Net.out (fun _ : Fin 1 => 0) 7, false, fun _ => 0⟩

theorem c3_witness :
    acceptedPairs cfgC3.cutoff (fun _ => 0) 0 [] = [] ∧
    (anchorDescriptor cfgC3 (fun _ => 0) 0 [] = (fun _ => 0) ∧
     anchorEnergy cfgC3 (fun _ => 0) 0 []
        = cfgC3.net.network (fun s => 0 - (if cfgC3.shift then cfgC3.means s else 0)) ∧
     (cfgC3.shift = false →
        anchorEnergy cfgC3 (fun _ => 0) 0 [] = cfgC3.net.network (fun _ => 0)) ∧
     (∀ q, anchorForceIncr cfgC3 (fun _ => 0) 0 [] q = 0) ∧
     (∀ (w : Fin 1 → ℝ) (b : ℝ), (Net.out w b).network (fun _ => 0) = b)) :=
  ⟨rfl, c3_empty_neighborhood cfgC3 (fun _ => 0) 0 [] rfl⟩

/-- A one-hidden-layer network with unit weights and zero biases,
refuting the claim that a zero descriptor row always produces the
output-layer bias. -/
def net1 : Net 1 :=
  Net.hidden (fun _ _ : Fin 1 => 1) (fun _ : Fin 1 => 0) (Net.out (fun _ : Fin 1 => 1) 0)

/-- A configuration around net1 with no mean shift and cutoff 1. -/
def cfg1 : Config 1 := ⟨1, fun _ => [], net1, false, fun _ => 0⟩

/-- All atoms at the origin. -/
def pos1 : ℕ → Vec3 := fun _ => 0

theorem c3_counterexample :
    acceptedPairs cfg1.cutoff pos1 0 [] = [] ∧
    anchorEnergy cfg1 pos1 0 [] = 1 / 2 ∧
    Net.outputBias cfg1.net = 0 ∧
    anchorEnergy cfg1 pos1 0 [] ≠ Net.outputBias cfg1.net := by
  have hbias : Net.outputBias cfg1.net = 0 := by
    show Net.outputBias net1 = 0
    simp [net1, Net.outputBias]
  have henergy : anchorEnergy cfg1 pos1 0 [] = 1 / 2 := by
    have hsv : shiftedVec cfg1 ((acceptedPairs cfg1.cutoff pos1 0 []).map Prod.snd)
        = fun _ => 0 := by
      funext s
      simp [shiftedVec, descriptorVec, cfg1, acceptedPairs, symFuncValue]
    unfold anchorEnergy energyOf
    rw [hsv]
    show net1.network (fun _ => 0) = 1 / 2
    simp [net1, Net.network, sigmoid, Real.exp_zero]
    norm_num
  refine ⟨rfl, henergy, hbias, ?_⟩
  rw [henergy, hbias]
  norm_num

theorem foldl_anchorStep {n : ℕ} (cfg : Config n) (pos : ℕ → Vec3) :
    ∀ (anchors : List (ℕ × List ℕ)) (st : SimState),
      (∀ q, (anchors.foldl (anchorStep cfg pos) st).forces q
          = st.forces q + (anchors.map fun a => anchorForceIncr cfg pos a.1 a.2 q).sum) ∧
      (anchors.foldl (anchorStep cfg pos) st).energy
          = st.energy + (anchors.map fun a => anchorEnergy cfg pos a.1 a.2).sum := by
  intro anchors
  induction anchors with
  | nil => intro st; simp
  | cons a t ih =>
    intro st
    refine ⟨fun q => ?_, ?_⟩
    · rw [List.foldl_cons, (ih (anchorStep cfg pos st a)).1 q]
      show st.forces q + anchorForceIncr cfg pos a.1 a.2 q + _ = _
      rw [List.map_cons, List.sum_cons, add_assoc]
    · rw [List.foldl_cons, (ih (anchorStep cfg pos st a)).2]
      show st.energy + anchorEnergy cfg pos a.1 a.2 + _ = _
      rw [List.map_cons, List.sum_cons, add_assoc]

/-- C8 amended: over one compute call the per-particle force
accumulators are only added into — every final force equals the
incoming value plus increments that do not depend on the incoming
state — while the global energy accumulator eng_vdwl is reset to zero
at the start of the call and the anchor energies are then accumulated,
so its incoming value is discarded rather than added to. -/
theorem c8_accumulation {n : ℕ} (cfg : Config n) (pos : ℕ → Vec3)
    (anchors : List (ℕ × List ℕ)) (st : SimState) :
    (∀ q, (compute cfg pos anchors st).forces q
        = st.forces q + (anchors.map fun a => anchorForceIncr cfg pos a.1 a.2 q).sum) ∧
    (compute cfg pos anchors st).energy
        = (anchors.map fun a => anchorEnergy cfg pos a.1 a.2).sum := by
  unfold compute
  refine ⟨fun q => (foldl_anchorStep cfg pos anchors _).1 q, ?_⟩
  rw [(foldl_anchorStep cfg pos anchors _).2]
  show (0 : ℝ) + _ = _
  rw [zero_add]

/-- The initial accumulator state for the C8 counterexample: a prior
energy of 5 already stored by the caller. -/
def st5 : SimState := ⟨fun _ => 0, 5⟩

theorem c8_counterexample :
    st5.energy = 5 ∧
    (compute cfg1 pos1 [] st5).energy = 0 ∧
    (compute cfg1 pos1 [] st5).energy ≠ st5.energy := by
  refine ⟨rfl, rfl, ?_⟩
  show (0 : ℝ) ≠ 5
  norm_num

/-! ## Permutation invariance of the descriptor row -/

theorem pairSum_perm {α M : Type*} [AddCommMonoid M] (f : α → α → M)
    (hf : ∀ a b, f a b = f b a) {l l2 : List α} (h : l.Perm l2) :
    pairSum f l = pairSum f l2 := by
  induction h with
  | nil => rfl
  | cons a h ih =>
    show (_ + _ : M) = _ + _
    rw [ih, (h.map (f a)).sum_eq]
  | swap a b t =>
    show (((a :: t).map (f b)).sum + ((t.map (f a)).sum + pairSum f t) : M)
        = ((b :: t).map (f a)).sum + ((t.map (f b)).sum + pairSum f t)
    rw [List.map_cons, List.sum_cons, List.map_cons, List.sum_cons, hf b a]
    abel
  | trans h1 h2 ih1 ih2 => rw [ih1, ih2]

theorem cosAngle_comm (a b : Vec3) : cosAngle a b = cosAngle b a := by
  unfold cosAngle Vec3.dot
  ring

theorem G5_swap (rij rik cosTheta eta Rc zeta lambda : ℝ) :
    G5 rij rik cosTheta eta Rc zeta lambda = G5 rik rij cosTheta eta Rc zeta lambda := by
  unfold G5
  rw [show rij * rij + rik * rik = rik * rik + rij * rij from by ring]
  ring

theorem symFuncValue_perm (p : List ℝ) {l l2 : List Vec3} (h : l.Perm l2) :
    symFuncValue p l = symFuncValue p l2 := by
  rcases p with _ | ⟨a, _ | ⟨b, _ | ⟨c, _ | ⟨d, _ | ⟨e, t⟩⟩⟩⟩⟩
  · rfl
  · rfl
  · rfl
  · exact (h.map _).sum_eq
  · refine pairSum_perm _ (fun u v => ?_) h
    rw [G5_swap, cosAngle_comm]
  · rfl

/-- C9: permuting the accepted neighbor list of an anchor — in
particular swapping the labels of two neighbors j and k — leaves the
descriptor row and the network energy unchanged, and each angular term
is symmetric under exchange of its two neighbor arguments. -/
theorem c9_neighbor_exchange {n : ℕ} (cfg : Config n) {l l2 : List Vec3}
    (h : l.Perm l2) :
    descriptorVec cfg l = descriptorVec cfg l2 ∧
    energyOf cfg l = energyOf cfg l2 ∧
    (∀ rij rik cosTheta eta Rc zeta lambda,
      G5 rij rik cosTheta eta Rc zeta lambda
        = G5 rik rij cosTheta eta Rc zeta lambda) := by
  have hdesc : descriptorVec cfg l = descriptorVec cfg l2 :=
    funext fun s => symFuncValue_perm (cfg.symm s) h
  refine ⟨hdesc, ?_, fun rij rik cosTheta eta Rc zeta lambda => G5_swap _ _ _ _ _ _ _⟩
  unfold energyOf shiftedVec
  rw [hdesc]

theorem c9_witness :
    List.Perm [Vec3.mk 1 0 0, Vec3.mk 0 2 0] [Vec3.mk 0 2 0, Vec3.mk 1 0 0] ∧
    (descriptorVec cfgC6 [Vec3.mk 1 0 0, Vec3.mk 0 2 0]
        = descriptorVec cfgC6 [Vec3.mk 0 2 0, Vec3.mk 1 0 0] ∧
     energyOf cfgC6 [Vec3.mk 1 0 0, Vec3.mk 0 2 0]
        = energyOf cfgC6 [Vec3.mk 0 2 0, Vec3.mk 1 0 0] ∧
     (∀ rij rik cosTheta eta Rc zeta lambda,
        G5 rij rik cosTheta eta Rc zeta lambda
          = G5 rik rij cosTheta eta Rc zeta lambda)) :=
  ⟨List.Perm.swap (Vec3.mk 0 2 0) (Vec3.mk 1 0 0) [],
   c9_neighbor_exchange cfgC6 (List.Perm.swap (Vec3.mk 0 2 0) (Vec3.mk 1 0 0) [])⟩

/-! ## The pair-only variant: tag-parity halving of the full list -/

/-- PairNN::compute's skip rule for anchor i and neighbor j: a pair is
processed unless the tag-parity test (for distinct tags) or the
z,y,x coordinate tie-break (for equal tags) rejects it. -/
def processes (itag jtag : ℕ) (xi xj : Vec3) : Prop :=
  if jtag < itag then ¬((itag + jtag) % 2 = 0)
  else if itag < jtag then ¬((itag + jtag) % 2 = 1)
  else ¬(xj.z < xi.z ∨ (xj.z = xi.z ∧ xj.y < xi.y) ∨
         (xj.z = xi.z ∧ xj.y = xi.y ∧ xj.x < xi.x))

/-- A pair is handled by anchor i during one step iff the skip rule
keeps it and the separation is strictly within the cutoff. -/
def processesPair (cutoff : ℝ) (itag jtag : ℕ) (xi xj : Vec3) : Prop :=
  processes itag jtag xi xj ∧ Vec3.normSq (xi - xj) < cutoff ^ 2

theorem lex_tiebreak (a1 b1 c1 a2 b2 c2 : ℝ)
    (hne : ¬(a1 = a2 ∧ b1 = b2 ∧ c1 = c2)) :
    (¬(c2 < c1 ∨ (c2 = c1 ∧ b2 < b1) ∨ (c2 = c1 ∧ b2 = b1 ∧ a2 < a1))
      ↔ (c1 < c2 ∨ (c1 = c2 ∧ b1 < b2) ∨ (c1 = c2 ∧ b1 = b2 ∧ a1 < a2))) := by
  constructor
  · intro hA
    push_neg at hA
    obtain ⟨hc, hb, ha⟩ := hA
    rcases lt_trichotomy c1 c2 with h | h | h
    · exact Or.inl h
    · rcases lt_trichotomy b1 b2 with h2 | h2 | h2
      · exact Or.inr (Or.inl ⟨h, h2⟩)
      · rcases lt_trichotomy a1 a2 with h3 | h3 | h3
        · exact Or.inr (Or.inr ⟨h, h2, h3⟩)
        · exact absurd ⟨h3, h2, h⟩ hne
        · exact absurd h3 (not_lt.mpr (ha h.symm h2.symm))
      · exact absurd h2 (not_lt.mpr (hb h.symm))
    · exact absurd h (not_lt.mpr hc)
  · intro hB hA
    rcases hB with h | ⟨h, h2⟩ | ⟨h, h2, h3⟩ <;>
      rcases hA with h4 | ⟨h4, h5⟩ | ⟨h4, h5, h6⟩ <;>
        first
          | exact absurd h (not_lt.mpr (le_of_lt h4))
          | exact absurd h (not_lt.mpr (le_of_eq h4))
          | exact absurd h4 (not_lt.mpr (le_of_eq h))
          | exact absurd h2 (not_lt.mpr (le_of_lt h5))
          | exact absurd h2 (not_lt.mpr (le_of_eq h5))
          | exact absurd h5 (not_lt.mpr (le_of_eq h2))
          | exact absurd h3 (not_lt.mpr (le_of_lt h6))

/-- C10: in the pair-only variant, for atoms with distinct tags or
distinct positions whose separation is strictly within the cutoff,
exactly one of the two anchor iterations processes the pair. -/
theorem c10_pair_processed_once (cutoff : ℝ) (itag jtag : ℕ) (xi xj : Vec3)
    (hne : itag ≠ jtag ∨ xi ≠ xj)
    (hcut : Vec3.normSq (xi - xj) < cutoff ^ 2) :
    processesPair cutoff itag jtag xi xj ↔ ¬processesPair cutoff jtag itag xj xi := by
  have hsymSq : Vec3.normSq (xj - xi) < cutoff ^ 2 := by
    have : Vec3.normSq (xj - xi) = Vec3.normSq (xi - xj) := by
      show (xj.x - xi.x) * (xj.x - xi.x) + (xj.y - xi.y) * (xj.y - xi.y)
            + (xj.z - xi.z) * (xj.z - xi.z) = _
      unfold Vec3.normSq
      simp only [Vec3.sub_def]
      ring
    rw [this]
    exact hcut
  have hps : processes itag jtag xi xj ↔ ¬processes jtag itag xj xi := by
    unfold processes
    rcases Nat.lt_trichotomy itag jtag with hlt | heq | hgt
    · rw [if_neg (by omega), if_pos hlt, if_pos hlt]
      omega
    · rw [if_neg (by omega), if_neg (by omega), if_neg (by omega), if_neg (by omega)]
      have hxy : xi ≠ xj := by
        rcases hne with h | h
        · exact absurd heq h
        · exact h
      have hcomp : ¬(xi.x = xj.x ∧ xi.y = xj.y ∧ xi.z = xj.z) := by
        rintro ⟨h1, h2, h3⟩
        exact hxy (Vec3.ext h1 h2 h3)
      rw [not_not]
      exact lex_tiebreak xi.x xi.y xi.z xj.x xj.y xj.z hcomp
    · rw [if_pos hgt, if_neg (by omega), if_pos hgt]
      omega
  constructor
  · rintro ⟨hp, _⟩ ⟨hq, _⟩
    exact (hps.mp hp) hq
  · intro hnot
    refine ⟨hps.mpr fun hq => hnot ⟨hq, hsymSq⟩, hcut⟩

theorem c10_witness :
    ((1 : ℕ) ≠ 2 ∨ (Vec3.mk 0 0 0) ≠ (Vec3.mk 0 0 0)) ∧
    Vec3.normSq (Vec3.mk 0 0 0 - Vec3.mk 0 0 0) < (1 : ℝ) ^ 2 ∧
    (processesPair 1 1 2 (Vec3.mk 0 0 0) (Vec3.mk 0 0 0)
      ↔ ¬processesPair 1 2 1 (Vec3.mk 0 0 0) (Vec3.mk 0 0 0)) := by
  have hcut : Vec3.normSq (Vec3.mk 0 0 0 - Vec3.mk 0 0 0) < (1 : ℝ) ^ 2 := by
    have hsub : Vec3.mk (0 : ℝ) 0 0 - Vec3.mk 0 0 0 = Vec3.mk 0 0 0 := by
      simp [Vec3.sub_def, Vec3.zero_def]
    rw [hsub]
    show (0 : ℝ) * 0 + 0 * 0 + 0 * 0 < 1 ^ 2
    norm_num
  exact ⟨Or.inl (by omega), hcut,
    c10_pair_processed_once 1 1 2 (Vec3.mk 0 0 0) (Vec3.mk 0 0 0)
      (Or.inl (by omega)) hcut⟩

/-! ## Parameter-file loading: the open-failure path -/

/-- What the loader does after testing whether the parameter file
stream opened. -/
inductive LoadAction where
  | abortRun (msg : String)
  | continueRun
  deriving DecidableEq

/-- PairNNAngular2::read_file's open check (and PairNN::read_file's):
when the stream failed to open it prints a diagnostic line to standard
output, and in either case the routine proceeds with loading. -/
def openCheck (isOpen : Bool) : List String × LoadAction :=
  (if isOpen then [] else ["Weight file is not opened"], LoadAction.continueRun)

/-- C7 evaluated on the failing input: with the parameter file missing
the loader emits a message but continues into setup instead of
aborting, so loading proceeds with a partially loaded parameter set. -/
theorem c7_open_failure_does_not_abort :
    (openCheck false).2 = LoadAction.continueRun ∧
    (∀ msg, (openCheck false).2 ≠ LoadAction.abortRun msg) := by
  refine ⟨rfl, fun msg h => ?_⟩
  exact LoadAction.noConfusion h

end PairNN
